import Mathlib

/-!
Shallow embedding of the core of `minecraft-launcher-core` (Rust), covering:
argument substitution (`ArgumentSubstitutorBuilder::build`), token redaction
and command-line logging (`MinecraftGameRunner::launch_game`), asset
reconstruction (`reconstruct_assets`), natives cleanup (`cleanup_old_natives`),
the natives directory name, per-version manifest fetching
(`RemoteVersionInfo::fetch`), library rule evaluation
(`Library::applies_to_current_environment`), classpath construction
(`construct_classpath`) and the substitutor map construction
(`create_arguments_substitutor`).

Strings are modelled as `List Char`; Rust `String::replace` is modelled by
`listReplace`, which performs the same leftmost, non-overlapping scan.
-/

namespace MCLauncher

/-- Strings of the Rust source, modelled as lists of characters. -/
abbrev Str := List Char

/-- Scanning loop of Rust `str::replace`, with explicit fuel so that the
recursion is structural (the fuel is always instantiated with the length of
the scanned string, see `listReplace`). -/
def listReplaceGo (p v : Str) : Nat → Str → Str
  | _, [] => []
  | 0, _ :: _ => []
  | fuel + 1, c :: rest =>
    if p ≠ [] ∧ p.isPrefixOf (c :: rest) then
      v ++ listReplaceGo p v fuel ((c :: rest).drop p.length)
    else
      c :: listReplaceGo p v fuel rest

/-- Rust `str::replace pat v`: scan left to right; at each position, if `pat`
is a (nonempty) prefix of the remainder, emit `v` and skip past the match,
otherwise copy one character.  This is exactly the leftmost non-overlapping
replacement performed by `String::replace` in the source. -/
def listReplace (p v : Str) (s : Str) : Str :=
  listReplaceGo p v s.length s

theorem listReplaceGo_eq (p v : Str) :
    ∀ fuel s, s.length ≤ fuel → listReplaceGo p v fuel s = listReplaceGo p v s.length s := by
  intro fuel
  induction fuel using Nat.strong_induction_on with
  | _ fuel ih =>
    intro s hs
    match fuel, s with
    | fuel, [] =>
      cases fuel <;> rfl
    | 0, c :: rest =>
      simp at hs
    | n + 1, c :: rest =>
      have hrest : rest.length ≤ n := by
        simp only [List.length_cons] at hs
        omega
      by_cases h : p ≠ [] ∧ p.isPrefixOf (c :: rest)
      · have hp : 0 < p.length := List.length_pos.mpr h.1
        have hdrop : ((c :: rest).drop p.length).length ≤ rest.length := by
          simp only [List.length_drop, List.length_cons]
          omega
        simp only [listReplaceGo, List.length_cons, if_pos h]
        rw [ih n (Nat.lt_succ_self n) _ (le_trans hdrop hrest),
          ih rest.length (Nat.lt_succ_of_le hrest) _ hdrop]
      · simp only [listReplaceGo, List.length_cons, if_neg h]
        rw [ih n (Nat.lt_succ_self n) _ hrest]

theorem listReplace_nil (p v : Str) : listReplace p v [] = [] := rfl

theorem listReplace_cons_match (p v : Str) (c : Char) (rest : Str)
    (h : p ≠ [] ∧ p.isPrefixOf (c :: rest)) :
    listReplace p v (c :: rest) = v ++ listReplace p v ((c :: rest).drop p.length) := by
  have hp : 0 < p.length := List.length_pos.mpr h.1
  have hdrop : ((c :: rest).drop p.length).length ≤ rest.length := by
    simp only [List.length_drop, List.length_cons]
    omega
  simp only [listReplace, List.length_cons, listReplaceGo, if_pos h]
  rw [listReplaceGo_eq _ _ _ _ hdrop]

theorem listReplace_cons_nomatch (p v : Str) (c : Char) (rest : Str)
    (h : ¬(p ≠ [] ∧ p.isPrefixOf (c :: rest))) :
    listReplace p v (c :: rest) = c :: listReplace p v rest := by
  simp only [listReplace, List.length_cons, listReplaceGo, if_neg h]

/-- The literal placeholder text `${key}` built by
`format!("${{{}}}", key)` in `ArgumentSubstitutorBuilder::build`. -/
def placeholder (key : Str) : Str := '$' :: '{' :: (key ++ ['}'])

/-- `ArgumentSubstitutorBuilder::build`: the returned closure folds over the
builder's map (a `HashMap`, modelled as an association list in iteration
order) replacing each `${key}` by its value, one `String::replace` pass per
entry. -/
def substituteList (m : List (Str × Str)) (s : Str) : Str :=
  m.foldl (fun out kv => listReplace (placeholder kv.1) kv.2 out) s

/-- Bool-valued occurrence test: `p` occurs as a contiguous substring of `s`. -/
def occursIn (p : Str) : Str → Bool
  | [] => p.isEmpty
  | c :: rest => p.isPrefixOf (c :: rest) || occursIn p rest

theorem occursIn_iff_infix (p s : Str) : occursIn p s = true ↔ p <:+: s := by
  induction s with
  | nil =>
    simp only [occursIn, List.isEmpty_iff, List.infix_nil]
  | cons c rest ih =>
    simp only [occursIn, Bool.or_eq_true, ih, List.isPrefixOf_iff_prefix,
      List.infix_cons_iff]

theorem listReplace_of_not_occurs (p v : Str) :
    ∀ s, occursIn p s = false → listReplace p v s = s := by
  intro s
  induction s with
  | nil => intro _; exact listReplace_nil p v
  | cons c rest ih =>
    intro h
    simp only [occursIn, Bool.or_eq_false_iff] at h
    rw [listReplace_cons_nomatch]
    · rw [ih h.2]
    · intro hcontra
      rw [h.1] at hcontra
      exact Bool.false_ne_true hcontra.2

theorem substituteList_of_fully_substituted (m : List (Str × Str)) (s : Str)
    (h : ∀ kv ∈ m, occursIn (placeholder kv.1) s = false) :
    substituteList m s = s := by
  induction m with
  | nil => rfl
  | cons kv m' ih =>
    have hstep : listReplace (placeholder kv.1) kv.2 s = s :=
      listReplace_of_not_occurs _ _ _ (h kv (List.mem_cons_self kv m'))
    show substituteList m' (listReplace (placeholder kv.1) kv.2 s) = s
    rw [hstep]
    exact ih (fun kv' hkv' => h kv' (List.mem_cons_of_mem kv hkv'))

/-- The five question marks substituted for the access token in
`launch_game`: `args.replace(&token, "?????")`. -/
def quesMarks : Str := ['?', '?', '?', '?', '?']

/-- The token-redaction step of `launch_game`:
`if !token.is_empty() { args = args.replace(&token, "?????"); }`. -/
def redactToken (token : Str) (args : Str) : Str :=
  if token.isEmpty then args else listReplace token quesMarks args

theorem occursIn_of_prefix (p s : Str) (h : p <+: s) : occursIn p s = true := by
  cases s with
  | nil =>
    have : p = [] := List.prefix_nil.mp h
    subst this
    rfl
  | cons c rest =>
    simp only [occursIn, Bool.or_eq_true, List.isPrefixOf_iff_prefix]
    exact Or.inl h

theorem prefix_listReplace_of_good (p v : Str) (hvne : v ≠ []) (hv : ∀ c ∈ v, c = '?') :
    ∀ n s u, s.length ≤ n → u ≠ [] → (∀ c ∈ u, c ≠ '?') →
      u <+: listReplace p v s → u <+: s := by
  intro n
  induction n with
  | zero =>
    intro s u hs hu _ hpre
    have : s = [] := List.length_eq_zero.mp (Nat.le_zero.mp hs)
    subst this
    rw [listReplace_nil] at hpre
    exact absurd (List.prefix_nil.mp hpre) hu
  | succ n ih =>
    intro s u hs hu hugood hpre
    match s with
    | [] =>
      rw [listReplace_nil] at hpre
      exact absurd (List.prefix_nil.mp hpre) hu
    | c :: rest =>
      match u with
      | uc :: u' =>
        by_cases h : p ≠ [] ∧ p.isPrefixOf (c :: rest)
        · rw [listReplace_cons_match _ _ _ _ h] at hpre
          match v with
          | vc :: v' =>
            rw [List.cons_append] at hpre
            have := (List.cons_prefix_cons.mp hpre).1
            have hvc : vc = '?' := hv vc (List.mem_cons_self vc v')
            exact absurd (this.trans hvc) (hugood uc (List.mem_cons_self uc u'))
        · rw [listReplace_cons_nomatch _ _ _ _ h] at hpre
          obtain ⟨huc, hu'⟩ := List.cons_prefix_cons.mp hpre
          subst huc
          match u' with
          | [] =>
            exact List.cons_prefix_cons.mpr ⟨rfl, List.nil_prefix⟩
          | d :: u'' =>
            have hrest : rest.length ≤ n := by
              simp only [List.length_cons] at hs
              omega
            have := ih rest (d :: u'') hrest (List.cons_ne_nil d u'')
              (fun c hc => hugood c (List.mem_cons_of_mem uc hc)) hu'
            exact List.cons_prefix_cons.mpr ⟨rfl, this⟩

theorem occursIn_ques_append (t : Str) (htne : t ≠ []) (htgood : ∀ c ∈ t, c ≠ '?') :
    ∀ w x, (∀ c ∈ w, c = '?') → occursIn t (w ++ x) = occursIn t x := by
  intro w
  induction w with
  | nil => intro x _; rfl
  | cons q w' ih =>
    intro x hw
    have hq : q = '?' := hw q (List.mem_cons_self q w')
    match t, htne with
    | tc :: t', _ =>
      have htc : tc ≠ '?' := htgood tc (List.mem_cons_self tc t')
      have hpre : (tc :: t').isPrefixOf (q :: (w' ++ x)) = false := by
        rw [Bool.eq_false_iff]
        intro hcontra
        have := (List.cons_prefix_cons.mp (List.isPrefixOf_iff_prefix.mp hcontra)).1
        exact htc (this.trans hq)
      simp only [List.cons_append, occursIn, List.append_eq, hpre, Bool.false_or]
      exact ih x (fun c hc => hw c (List.mem_cons_of_mem q hc))

theorem not_occursIn_listReplace_ques (t : Str) (htne : t ≠ []) (htgood : ∀ c ∈ t, c ≠ '?') :
    ∀ n s, s.length ≤ n → occursIn t (listReplace t quesMarks s) = false := by
  intro n
  induction n with
  | zero =>
    intro s hs
    have : s = [] := List.length_eq_zero.mp (Nat.le_zero.mp hs)
    subst this
    rw [listReplace_nil]
    simpa [occursIn, List.isEmpty_iff] using htne
  | succ n ih =>
    intro s hs
    match s with
    | [] =>
      rw [listReplace_nil]
      simpa [occursIn, List.isEmpty_iff] using htne
    | c :: rest =>
      have hrest : rest.length ≤ n := by
        simp only [List.length_cons] at hs
        omega
      by_cases h : t ≠ [] ∧ t.isPrefixOf (c :: rest)
      · rw [listReplace_cons_match _ _ _ _ h]
        rw [occursIn_ques_append t htne htgood quesMarks _ (by decide)]
        have ht : 0 < t.length := List.length_pos.mpr htne
        have hdrop : ((c :: rest).drop t.length).length ≤ n := by
          simp only [List.length_drop, List.length_cons]
          omega
        exact ih _ hdrop
      · rw [listReplace_cons_nomatch _ _ _ _ h]
        simp only [occursIn, Bool.or_eq_false_iff]
        constructor
        · rw [Bool.eq_false_iff]
          intro hcontra
          have hpre : t <+: listReplace t quesMarks (c :: rest) := by
            rw [listReplace_cons_nomatch _ _ _ _ h]
            exact List.isPrefixOf_iff_prefix.mp hcontra
          have := prefix_listReplace_of_good t quesMarks (by decide) (by decide)
            (c :: rest).length (c :: rest) t le_rfl htne htgood hpre
          exact h ⟨htne, List.isPrefixOf_iff_prefix.mpr this⟩
        · exact ih rest hrest

theorem occursIn_ques_listReplace_of_occurs (t : Str) (htne : t ≠ []) :
    ∀ s, occursIn t s = true → occursIn quesMarks (listReplace t quesMarks s) = true := by
  intro s
  induction s with
  | nil =>
    intro hocc
    simp only [occursIn, List.isEmpty_iff] at hocc
    exact absurd hocc htne
  | cons c rest ih =>
    intro hocc
    by_cases h : t ≠ [] ∧ t.isPrefixOf (c :: rest)
    · rw [listReplace_cons_match _ _ _ _ h]
      exact occursIn_of_prefix _ _ (List.prefix_append quesMarks _)
    · rw [listReplace_cons_nomatch _ _ _ _ h]
      have hnp : t.isPrefixOf (c :: rest) = false := by
        rcases Bool.eq_false_or_eq_true (t.isPrefixOf (c :: rest)) with ht | hf
        · exact absurd ⟨htne, ht⟩ h
        · exact hf
      simp only [occursIn, hnp, Bool.false_or] at hocc
      simp only [occursIn, Bool.or_eq_true]
      exact Or.inr (ih hocc)

/-! ### Argument templates

To state in what sense `ArgumentSubstitutorBuilder::build` "replaces every
`${key}` and leaves unknown placeholders verbatim", we describe input strings
as templates: sequences of literal characters and `${name}` placeholders. -/

/-- One element of an argument template: a literal character or a `${name}`
placeholder. -/
inductive TItem
  | lit (c : Char)
  | ph (name : Str)
deriving DecidableEq

/-- A character that may appear in a placeholder name without interfering
with the `${`/`}` delimiters. -/
def saneChar (c : Char) : Bool := c ≠ '$' && c ≠ '{' && c ≠ '}'

/-- A placeholder name made only of non-delimiter characters. -/
def saneName (n : Str) : Bool := n.all saneChar

/-- Flatten a template to the concrete argument string. -/
def renderTemplate : List TItem → Str
  | [] => []
  | .lit c :: items => c :: renderTemplate items
  | .ph n :: items => placeholder n ++ renderTemplate items

/-- Well-formed template: literals are not `'$'` and names are sane, so the
placeholders of the rendered string are exactly the `ph` items. -/
def wfTemplate (items : List TItem) : Bool :=
  items.all fun
    | .lit c => c ≠ '$'
    | .ph n => saneName n

/-- The output described by the claim: each `${name}` whose name is a key of
the map becomes that key's value, every other placeholder stays verbatim,
literals are untouched. -/
def applyTemplate (m : List (Str × Str)) : List TItem → Str
  | [] => []
  | .lit c :: items => c :: applyTemplate m items
  | .ph n :: items =>
    (match List.lookup n m with
     | some v => v
     | none => placeholder n) ++ applyTemplate m items

/-- Effect of one `String::replace` pass for key `k` on a template:
`${k}` placeholders become the value, spelled as literals. -/
def substOne (k v : Str) : List TItem → List TItem
  | [] => []
  | .lit c :: items => .lit c :: substOne k v items
  | .ph n :: items => (if n = k then v.map TItem.lit else [.ph n]) ++ substOne k v items

theorem saneChar_spec (c : Char) (h : saneChar c = true) : c ≠ '$' ∧ c ≠ '{' ∧ c ≠ '}' := by
  simp only [saneChar, Bool.and_eq_true, decide_eq_true_eq] at h
  exact ⟨h.1.1, h.1.2, h.2⟩

theorem renderTemplate_lits (v : Str) (items : List TItem) :
    renderTemplate (v.map TItem.lit ++ items) = v ++ renderTemplate items := by
  induction v with
  | nil => rfl
  | cons c v' ih =>
    simp only [List.map_cons, List.cons_append, renderTemplate, List.append_eq, ih]

theorem applyTemplate_lits (m : List (Str × Str)) (v : Str) (items : List TItem) :
    applyTemplate m (v.map TItem.lit ++ items) = v ++ applyTemplate m items := by
  induction v with
  | nil => rfl
  | cons c v' ih =>
    simp only [List.map_cons, List.cons_append, applyTemplate, List.append_eq, ih]

theorem applyTemplate_nil_eq_render (items : List TItem) :
    applyTemplate [] items = renderTemplate items := by
  induction items with
  | nil => rfl
  | cons item items ih =>
    cases item with
    | lit c => simp only [applyTemplate, renderTemplate, ih]
    | ph n => simp only [applyTemplate, renderTemplate, List.lookup_nil, ih]

theorem listReplace_nondollar_chunk (p' v : Str) :
    ∀ t u, (∀ c ∈ t, c ≠ '$') →
      listReplace ('$' :: p') v (t ++ u) = t ++ listReplace ('$' :: p') v u := by
  intro t
  induction t with
  | nil => intro u _; rfl
  | cons c t' ih =>
    intro u ht
    rw [List.cons_append, listReplace_cons_nomatch]
    · rw [ih u (fun d hd => ht d (List.mem_cons_of_mem c hd)), List.cons_append]
    · rintro ⟨-, hpre⟩
      simp only [List.isPrefixOf, Bool.and_eq_true, beq_iff_eq] at hpre
      exact ht c (List.mem_cons_self c t') hpre.1.symm

theorem close_notPrefix :
    ∀ k n rest : Str, saneName k = true → saneName n = true → k ≠ n →
      (k ++ ['}']).isPrefixOf ((n ++ ['}']) ++ rest) = false := by
  intro k
  induction k with
  | nil =>
    intro n rest _ hn hne
    match n with
    | [] => exact absurd rfl hne
    | b :: n' =>
      have hb := saneChar_spec b ((List.all_eq_true.mp hn) b (List.mem_cons_self b n'))
      rw [Bool.eq_false_iff]
      intro hcontra
      simp only [List.nil_append, List.cons_append] at hcontra
      have := (List.cons_prefix_cons.mp (List.isPrefixOf_iff_prefix.mp hcontra)).1
      exact hb.2.2 this.symm
  | cons a k' ih =>
    intro n rest hk hn hne
    have ha := saneChar_spec a ((List.all_eq_true.mp hk) a (List.mem_cons_self a k'))
    have hk' : saneName k' = true :=
      List.all_eq_true.mpr fun c hc => (List.all_eq_true.mp hk) c (List.mem_cons_of_mem a hc)
    match n with
    | [] =>
      rw [Bool.eq_false_iff]
      intro hcontra
      simp only [List.nil_append, List.cons_append] at hcontra
      have := (List.cons_prefix_cons.mp (List.isPrefixOf_iff_prefix.mp hcontra)).1
      exact ha.2.2 this
    | b :: n' =>
      have hn' : saneName n' = true :=
        List.all_eq_true.mpr fun c hc => (List.all_eq_true.mp hn) c (List.mem_cons_of_mem b hc)
      by_cases hab : a = b
      · subst hab
        have hne' : k' ≠ n' := fun hcontra => hne (by rw [hcontra])
        have hstep := ih n' rest hk' hn' hne'
        rw [Bool.eq_false_iff] at hstep ⊢
        intro hcontra
        apply hstep
        simp only [List.cons_append] at hcontra
        have hpre := (List.cons_prefix_cons.mp (List.isPrefixOf_iff_prefix.mp hcontra)).2
        exact List.isPrefixOf_iff_prefix.mpr hpre
      · rw [Bool.eq_false_iff]
        intro hcontra
        simp only [List.cons_append] at hcontra
        have := (List.cons_prefix_cons.mp (List.isPrefixOf_iff_prefix.mp hcontra)).1
        exact hab this

theorem placeholder_notPrefix (k n : Str) (rest : Str)
    (hk : saneName k = true) (hn : saneName n = true) (hne : k ≠ n) :
    (placeholder k).isPrefixOf (placeholder n ++ rest) = false := by
  rw [Bool.eq_false_iff]
  intro hcontra
  simp only [placeholder, List.cons_append] at hcontra
  have h1 := List.cons_prefix_cons.mp (List.isPrefixOf_iff_prefix.mp hcontra)
  have h2 := List.cons_prefix_cons.mp h1.2
  have := close_notPrefix k n rest hk hn hne
  rw [Bool.eq_false_iff] at this
  exact this (List.isPrefixOf_iff_prefix.mpr h2.2)

theorem listReplace_append_match (p v x : Str) (hp : p ≠ []) :
    listReplace p v (p ++ x) = v ++ listReplace p v x := by
  match p with
  | pc :: p' =>
    rw [List.cons_append, listReplace_cons_match]
    · congr 1
      have : pc :: (p' ++ x) = (pc :: p') ++ x := by rw [List.cons_append]
      rw [this, List.drop_left]
    · constructor
      · exact hp
      · rw [← List.cons_append, List.isPrefixOf_iff_prefix]
        exact List.prefix_append _ _

theorem listReplace_render (k v : Str) (hk : saneName k = true) :
    ∀ items, wfTemplate items = true →
      listReplace (placeholder k) v (renderTemplate items)
        = renderTemplate (substOne k v items) := by
  intro items
  induction items with
  | nil => intro _; rfl
  | cons item items ih =>
    intro hwf
    have hwf' : wfTemplate items = true :=
      List.all_eq_true.mpr fun x hx => (List.all_eq_true.mp hwf) x (List.mem_cons_of_mem item hx)
    cases item with
    | lit c =>
      have hc : c ≠ '$' := by
        have := (List.all_eq_true.mp hwf) (TItem.lit c) (List.mem_cons_self _ _)
        simpa using this
      show listReplace (placeholder k) v (c :: renderTemplate items) = _
      rw [listReplace_cons_nomatch]
      · rw [ih hwf']
        rfl
      · rintro ⟨-, hpre⟩
        simp only [placeholder, List.isPrefixOf, Bool.and_eq_true, beq_iff_eq] at hpre
        exact hc hpre.1.symm
    | ph n =>
      have hn : saneName n = true := by
        have := (List.all_eq_true.mp hwf) (TItem.ph n) (List.mem_cons_self _ _)
        simpa using this
      by_cases hnk : n = k
      · subst hnk
        show listReplace (placeholder n) v (placeholder n ++ renderTemplate items) = _
        rw [listReplace_append_match _ _ _ (by simp [placeholder]), ih hwf']
        show _ = renderTemplate ((if n = n then v.map TItem.lit else [TItem.ph n]) ++ substOne n v items)
        rw [if_pos rfl, renderTemplate_lits]
      · show listReplace (placeholder k) v (placeholder n ++ renderTemplate items) = _
        have hform : placeholder n ++ renderTemplate items
            = '$' :: (('{' :: (n ++ ['}'])) ++ renderTemplate items) := by
          simp [placeholder]
        rw [hform, listReplace_cons_nomatch]
        · have hchunk : ∀ c ∈ '{' :: (n ++ ['}']), c ≠ '$' := by
            intro c hc
            rcases List.mem_cons.mp hc with h1 | h2
            · subst h1; decide
            · rcases List.mem_append.mp h2 with h3 | h4
              · exact (saneChar_spec c ((List.all_eq_true.mp hn) c h3)).1
              · have : c = '}' := by simpa using h4
                subst this; decide
          have hph : placeholder k = '$' :: ('{' :: (k ++ ['}'])) := rfl
          rw [hph, listReplace_nondollar_chunk _ _ _ _ hchunk, ← hph, ih hwf']
          show _ = renderTemplate ((if n = k then v.map TItem.lit else [TItem.ph n]) ++ substOne k v items)
          rw [if_neg hnk]
          simp [placeholder, renderTemplate]
        · rintro ⟨-, hpre⟩
          rw [← hform] at hpre
          rw [placeholder_notPrefix k n _ hk hn (fun hcontra => hnk hcontra.symm)] at hpre
          exact Bool.false_ne_true hpre

theorem wfTemplate_substOne (k v : Str) (hv : ∀ c ∈ v, c ≠ '$') :
    ∀ items, wfTemplate items = true → wfTemplate (substOne k v items) = true := by
  intro items
  induction items with
  | nil => intro _; rfl
  | cons item items ih =>
    intro hwf
    have hwf' : wfTemplate items = true :=
      List.all_eq_true.mpr fun x hx => (List.all_eq_true.mp hwf) x (List.mem_cons_of_mem item hx)
    cases item with
    | lit c =>
      have hc := (List.all_eq_true.mp hwf) (TItem.lit c) (List.mem_cons_self _ _)
      show wfTemplate (TItem.lit c :: substOne k v items) = true
      rw [wfTemplate, List.all_cons, Bool.and_eq_true]
      exact ⟨hc, ih hwf'⟩
    | ph n =>
      have hn := (List.all_eq_true.mp hwf) (TItem.ph n) (List.mem_cons_self _ _)
      show wfTemplate ((if n = k then v.map TItem.lit else [TItem.ph n]) ++ substOne k v items) = true
      rw [wfTemplate, List.all_append, Bool.and_eq_true]
      refine ⟨?_, ih hwf'⟩
      by_cases hnk : n = k
      · rw [if_pos hnk, List.all_eq_true]
        rintro x hx
        rcases List.mem_map.mp hx with ⟨c, hc, rfl⟩
        simpa using hv c hc
      · rw [if_neg hnk, List.all_eq_true]
        rintro x hx
        have : x = TItem.ph n := by simpa using hx
        subst this
        exact hn

theorem applyTemplate_substOne (m' : List (Str × Str)) (k v : Str) :
    ∀ items, applyTemplate m' (substOne k v items) = applyTemplate ((k, v) :: m') items := by
  intro items
  induction items with
  | nil => rfl
  | cons item items ih =>
    cases item with
    | lit c =>
      show applyTemplate m' (TItem.lit c :: substOne k v items) = _
      simp only [applyTemplate, ih]
    | ph n =>
      show applyTemplate m' ((if n = k then v.map TItem.lit else [TItem.ph n]) ++ substOne k v items) = _
      by_cases hnk : n = k
      · subst hnk
        rw [if_pos rfl, applyTemplate_lits]
        show _ = (match List.lookup n ((n, v) :: m') with
          | some v => v
          | none => placeholder n) ++ applyTemplate ((n, v) :: m') items
        simp only [List.lookup, beq_self_eq_true]
        rw [ih]
      · rw [if_neg hnk, List.cons_append, List.nil_append]
        show (match List.lookup n m' with
          | some v => v
          | none => placeholder n) ++ applyTemplate m' (substOne k v items) = _
        have hlook : List.lookup n ((k, v) :: m') = List.lookup n m' := by
          have hbeq : (n == k) = false := beq_eq_false_iff_ne.mpr hnk
          simp [List.lookup, hbeq]
        rw [ih]
        show _ = (match List.lookup n ((k, v) :: m') with
          | some v => v
          | none => placeholder n) ++ applyTemplate ((k, v) :: m') items
        rw [hlook]

theorem substituteList_template (m : List (Str × Str)) :
    ∀ items, (∀ kv ∈ m, saneName kv.1 = true) →
      (∀ kv ∈ m, ∀ c ∈ kv.2, c ≠ '$') →
      wfTemplate items = true →
      substituteList m (renderTemplate items) = applyTemplate m items := by
  induction m with
  | nil =>
    intro items _ _ _
    exact (applyTemplate_nil_eq_render items).symm
  | cons kv m' ih =>
    intro items hkeys hvals hwf
    obtain ⟨k, v⟩ := kv
    have hk : saneName k = true := hkeys (k, v) (List.mem_cons_self _ _)
    have hv : ∀ c ∈ v, c ≠ '$' := hvals (k, v) (List.mem_cons_self _ _)
    show substituteList m' (listReplace (placeholder k) v (renderTemplate items)) = _
    rw [listReplace_render k v hk items hwf]
    rw [ih (substOne k v items)
      (fun kv' hkv' => hkeys kv' (List.mem_cons_of_mem _ hkv'))
      (fun kv' hkv' => hvals kv' (List.mem_cons_of_mem _ hkv'))
      (wfTemplate_substOne k v hv items hwf)]
    exact applyTemplate_substOne m' k v items

/-! ### Asset reconstruction (`MinecraftGameRunner::reconstruct_assets`) -/

/-- The `should_copy` computation of `reconstruct_assets`, for one
`(logicalName, {hash})` entry:
`let mut should_copy = true;`
`if asset_file.is_file() { let hash = Sha1Sum::from_reader(..)?; if hash != asset_obj_entry.1.hash { should_copy = true; } }`.
SHA-1 digests are modelled as natural numbers. -/
def shouldCopyAsset (destIsFile : Bool) (destHash recordedHash : Nat) : Bool :=
  let should := true
  if destIsFile then
    (if destHash ≠ recordedHash then true else should)
  else should

/-! ### Natives cleanup (`MinecraftGameRunner::cleanup_old_natives`) -/

/-- The deletion guard of `cleanup_old_natives`:
`current_time - modified_time.elapsed()?.as_millis() >= 3600000`, where
`current_time = Utc::now().timestamp_millis()`.  All quantities in
milliseconds, as natural numbers. -/
def shouldDeleteNatives (currentTimeMillis elapsedMillis : Nat) : Bool :=
  3600000 ≤ currentTimeMillis - elapsedMillis

/-- `SystemTime::elapsed` of the directory's modification time, evaluated at
the same instant `current_time` was taken: now − mtime. -/
def elapsedSinceModified (nowMillis modifiedMillis : Nat) : Nat :=
  nowMillis - modifiedMillis

/-! ### Per-version manifest fetch (`RemoteVersionInfo::fetch`) -/

/-- `RemoteVersionInfo::fetch` after the HTTP body has been received: hash
the bytes with `Sha1Sum::from_reader`, fail on digest mismatch against the
index entry's recorded `sha1`, otherwise parse the bytes (a parse failure is
also an error, propagated by `?`).  Bytes are lists of naturals, digests are
naturals, and `Doc` abstracts `LocalVersionInfo`. -/
def fetchVersion {Doc : Type} (hash : List Nat → Nat) (parse : List Nat → Option Doc)
    (bytes : List Nat) (recordedSha1 : Nat) : Except String Doc :=
  let sha1 := hash bytes
  if sha1 ≠ recordedSha1 then
    Except.error "Sha1 mismatch"
  else
    match parse bytes with
    | some doc => Except.ok doc
    | none => Except.error "invalid json"

/-! ### Library rules (`Library::applies_to_current_environment`) -/

inductive RuleAction
  | allow
  | disallow
deriving DecidableEq, BEq

/-- A rule, abstracted over the environment (`FeatureMatcher` plus current
OS).  `ruleMatches` tells whether every present constraint of the rule matches
the environment; `action` is the rule's allow/disallow action. -/
structure Rule (Env : Type) where
  ruleMatches : Env → Bool
  action : RuleAction

/-- Modelled from the spec: `Rule::get_applied_action` lives in `rule.rs`,
which is not under `src/`.  Per the spec, a rule matches when every present
constraint matches, in which case its action applies; otherwise it
contributes nothing. -/
def Rule.getAppliedAction {Env : Type} (r : Rule Env) (m : Env) : Option RuleAction :=
  if r.ruleMatches m then some r.action else none

/-- `Library::applies_to_current_environment`: `true` for an empty rule
list; otherwise fold over the rules starting from `Disallow`, overwriting
the action with that of every rule that applies, and compare the result
with `Allow`. -/
def appliesToCurrentEnvironment {Env : Type} (rules : List (Rule Env)) (m : Env) : Bool :=
  if rules.isEmpty then true
  else
    let action := rules.foldl
      (fun action rule =>
        match rule.getAppliedAction m with
        | some applied => applied
        | none => action)
      RuleAction.disallow
    action == RuleAction.allow

/-- The claim's description of rule evaluation: `Allow` for an empty list;
otherwise the action of the last rule in order that matches the
environment, and `Disallow` when no rule matches. -/
def claimedRuleOutcome {Env : Type} (rules : List (Rule Env)) (m : Env) : RuleAction :=
  if rules.isEmpty then RuleAction.allow
  else
    match (rules.filter (fun r => r.ruleMatches m)).getLast? with
    | some r => r.action
    | none => RuleAction.disallow

/-! ### Classpath (`MinecraftGameRunner::construct_classpath`) -/

inductive OperatingSystem
  | windows
  | linux
  | osx
deriving DecidableEq, BEq

/-- Classpath separator of `construct_classpath` (and of
`create_arguments_substitutor`): `";"` on Windows, `":"` on every other
OS. -/
def classpathSeparator (os : OperatingSystem) : Str :=
  if os == OperatingSystem.windows then [';'] else [':']

/-- Modelled from the spec: `LocalVersionInfo::get_classpath` lives in
`manifest.rs`, which is not under `src/`.  Per the spec, the classpath is
the local path of each relevant non-native library followed by the main jar
path. -/
def getClasspath (libraryPaths : List Str) (jarPath : Str) : List Str :=
  libraryPaths ++ [jarPath]

/-- `construct_classpath`: return an error naming the first classpath entry
that is not an existing regular file; otherwise join all entries with the
separator.  The file system is abstracted by the predicate `isFile`. -/
def constructClasspath (isFile : Str → Bool) (os : OperatingSystem)
    (libraryPaths : List Str) (jarPath : Str) : Except Str Str :=
  let classpath := getClasspath libraryPaths jarPath
  match classpath.find? (fun p => !isFile p) with
  | some p => Except.error ("Classpath file not found: ".toList ++ p)
  | none => Except.ok (List.intercalate (classpathSeparator os) classpath)

/-! ### Logged command lines (`MinecraftGameRunner::launch_game`) -/

/-- `get_args().join(" ")`. -/
def joinSpace (args : List Str) : Str := List.intercalate [' '] args

/-- The command-line payloads logged by `launch_game`, in order: the
`info!("Half command: {}")` line — the JVM arguments plus the main class,
logged verbatim before the game arguments are appended — and the
`debug!("Running {} {}")` line, logged after the token redaction
`args.replace(&token, "?????")`. -/
def launcherCommandLogs (halfArgs fullArgs : List Str) (token : Str) : List Str :=
  [joinSpace halfArgs, redactToken token (joinSpace fullArgs)]

/-! ### Natives directory name (`MinecraftGameRunner::launch_game`) -/

/-- A UTC instant: whole seconds since the epoch plus the nanosecond
fraction of the current second. -/
structure Instant where
  sec : Nat
  nano : Nat
deriving DecidableEq

/-- `chrono`'s `Timelike::nanosecond()`: the nanosecond fraction of the
second of the instant — not a full timestamp. -/
def Instant.nanosecond (t : Instant) : Nat := t.nano

/-- The natives extraction directory name created by `launch_game`:
`format!("{}-natives-{}", version, Utc::now().nanosecond())`. -/
def nativesDirName (versionId : Str) (now : Instant) : Str :=
  versionId ++ "-natives-".toList ++ (toString now.nanosecond).toList

/-! ### Substitutor map construction (`create_arguments_substitutor`) -/

/-- A `HashMap<String, String>` modelled as a lookup function. -/
def StrMap := Str → Option Str

/-- `HashMap::insert` behind `ArgumentSubstitutorBuilder::add`: a later
insertion of the same key replaces the earlier value. -/
def insertKV (m : StrMap) (k v : Str) : StrMap :=
  fun k' => if k' = k then some v else m k'

/-- `ArgumentSubstitutorBuilder::add_all`: insert every pair of the given
map (whose iteration order is modelled by the list order). -/
def addAllKV (m : StrMap) (l : List (Str × Str)) : StrMap :=
  l.foldl (fun acc kv => insertKV acc kv.1 kv.2) m

def emptyStrMap : StrMap := fun _ => none

/-- The values read by `create_arguments_substitutor` from the game options,
the authentication capability, the resolved version and the file system. -/
structure SubstitutorInputs where
  authAccessToken : Str
  authSession : Str
  authPlayerName : Str
  authUuid : Str
  userType : Str
  versionId : Str
  gameDirectory : Str
  gameAssets : Str
  assetsRoot : Str
  assetsIndexName : Str
  versionType : Str
  resolution : Option (Str × Str)
  assetIndexSubstitutions : List (Str × Str)
  launcherOptions : Option (Str × Str)
  nativesDirectory : Str
  classpath : Str
  os : OperatingSystem
  primaryJar : Str
  libraryDirectory : Str
  extraSubstitutors : List (Str × Str)
  substitutorOverrides : List (Str × Str)

/-- The insertion sequence of `create_arguments_substitutor`, in source
order: built-in keys, then asset keys, then launcher keys, then
classpath-related keys, then the authentication extras, and the
user-configured `substitutor_overrides` last. -/
def createArgumentsSubstitutorMap (i : SubstitutorInputs) : StrMap :=
  let m := emptyStrMap
  let m := insertKV m "auth_access_token".toList i.authAccessToken
  let m := insertKV m "auth_session".toList i.authSession
  let m := insertKV m "auth_player_name".toList i.authPlayerName
  let m := insertKV m "auth_uuid".toList i.authUuid
  let m := insertKV m "user_type".toList i.userType
  let m := insertKV m "profile_name".toList []
  let m := insertKV m "version_name".toList i.versionId
  let m := insertKV m "game_directory".toList i.gameDirectory
  let m := insertKV m "game_assets".toList i.gameAssets
  let m := insertKV m "assets_root".toList i.assetsRoot
  let m := insertKV m "assets_index_name".toList i.assetsIndexName
  let m := insertKV m "version_type".toList i.versionType
  let m := match i.resolution with
    | some res =>
      let m := insertKV m "resolution_width".toList res.1
      insertKV m "resolution_height".toList res.2
    | none =>
      let m := insertKV m "resolution_width".toList []
      insertKV m "resolution_height".toList []
  let m := insertKV m "language".toList "en-us".toList
  let m := addAllKV m i.assetIndexSubstitutions
  let m := match i.launcherOptions with
    | some opts =>
      let m := insertKV m "launcher_name".toList opts.1
      insertKV m "launcher_version".toList opts.2
    | none =>
      let m := insertKV m "launcher_name".toList []
      insertKV m "launcher_version".toList []
  let m := insertKV m "natives_directory".toList i.nativesDirectory
  let m := insertKV m "classpath".toList i.classpath
  let m := insertKV m "classpath_separator".toList (classpathSeparator i.os)
  let m := insertKV m "primary_jar".toList i.primaryJar
  let m := insertKV m "clientid".toList []
  let m := insertKV m "auth_xuid".toList []
  let m := insertKV m "library_directory".toList i.libraryDirectory
  let m := addAllKV m i.extraSubstitutors
  addAllKV m i.substitutorOverrides

theorem foldl_rules_eq_lastMatch {Env : Type} (m : Env) (rules : List (Rule Env)) :
    rules.foldl
        (fun action rule =>
          match rule.getAppliedAction m with
          | some applied => applied
          | none => action)
        RuleAction.disallow
      = match (rules.filter (fun r => r.ruleMatches m)).getLast? with
        | some r => r.action
        | none => RuleAction.disallow := by
  induction rules using List.reverseRecOn with
  | nil => rfl
  | append_singleton rs r ih =>
    rw [List.foldl_append, List.filter_append]
    by_cases hr : r.ruleMatches m
    · have hfil : List.filter (fun r => r.ruleMatches m) [r] = [r] := by
        simp [List.filter, hr]
      rw [hfil, List.getLast?_concat]
      simp only [List.foldl_cons, List.foldl_nil, Rule.getAppliedAction, if_pos hr]
    · have hfil : List.filter (fun r => r.ruleMatches m) [r] = [] := by
        simp [List.filter, hr]
      rw [hfil, List.append_nil]
      simp only [List.foldl_cons, List.foldl_nil, Rule.getAppliedAction, if_neg hr]
      exact ih

theorem addAllKV_not_mem :
    ∀ (l : List (Str × Str)) (m : StrMap) (k : Str),
      k ∉ l.map Prod.fst → addAllKV m l k = m k := by
  intro l
  induction l with
  | nil => intro m k _; rfl
  | cons kv rest ih =>
    intro m k hk
    have hk1 : k ≠ kv.1 := by
      intro hcontra
      exact hk (by simp [hcontra])
    have hk2 : k ∉ rest.map Prod.fst := by
      intro hcontra
      exact hk (by simp [hcontra])
    show addAllKV (insertKV m kv.1 kv.2) rest k = m k
    rw [ih _ k hk2]
    simp [insertKV, hk1]

theorem addAllKV_lookup_of_mem :
    ∀ (l : List (Str × Str)) (m : StrMap) (k v : Str),
      (l.map Prod.fst).Nodup → (k, v) ∈ l → addAllKV m l k = some v := by
  intro l
  induction l with
  | nil => intro m k v _ hmem; exact absurd hmem (List.not_mem_nil _)
  | cons kv rest ih =>
    intro m k v hnodup hmem
    rw [List.map_cons] at hnodup
    have hpair := List.nodup_cons.mp hnodup
    rcases List.mem_cons.mp hmem with heq | hmem'
    · subst heq
      show addAllKV (insertKV m k v) rest k = some v
      rw [addAllKV_not_mem rest _ k hpair.1]
      simp [insertKV]
    · exact ih _ k v hpair.2 hmem'

/-! ## Claims -/

/-- C1: the claim says the object is copied iff the destination is missing
or its SHA-1 differs — in particular, no copy when the destination exists
with a matching digest.  The source's `should_copy` is initialised to `true`
and never set to `false`, so at the failing input — destination file exists
and its digest (42) equals the recorded hash (42) — the code still copies. -/
theorem c1_copy_despite_matching_hash : shouldCopyAsset true 42 42 = true := rfl

/-- C2: the claim says a natives directory is deleted iff its mtime is more
than one hour old, and never when it was modified within the last hour.  The
code computes `current_time - elapsed`, which is the directory's
modification epoch-time, and compares that against 3 600 000 ms.  At the
failing input — now = 1 700 000 000 000 ms, directory modified 1 000 ms
ago — the code deletes the directory even though it is far younger than one
hour. -/
theorem c2_deletes_fresh_directory :
    shouldDeleteNatives 1700000000000 (elapsedSinceModified 1700000000000 1699999999000) = true
      ∧ elapsedSinceModified 1700000000000 1699999999000 < 3600000 := by
  constructor
  · decide
  · decide

/-- C3: `RemoteVersionInfo::fetch` fails whenever the SHA-1 of the fetched
bytes differs from the recorded `sha1`, and returns a parsed document only
when the digests are equal. -/
theorem c3_fetch_sha1_gate {Doc : Type} (hash : List Nat → Nat)
    (parse : List Nat → Option Doc) (bytes : List Nat) (recordedSha1 : Nat) :
    (hash bytes ≠ recordedSha1 → (fetchVersion hash parse bytes recordedSha1).isOk = false)
      ∧ (∀ doc, fetchVersion hash parse bytes recordedSha1 = Except.ok doc →
          hash bytes = recordedSha1) := by
  constructor
  · intro hne
    simp [fetchVersion, hne, Except.isOk, Except.toBool]
  · intro doc hok
    by_contra hne
    simp [fetchVersion, hne] at hok

/-- Witness for C3 at a concrete input: digest 5 of the empty byte list
differs from the recorded digest 4, and fetching indeed fails. -/
theorem c3_fetch_sha1_gate_witness :
    (fetchVersion (fun _ => 5) (fun _ => some (7 : Nat)) [] 4).isOk = false :=
  (c3_fetch_sha1_gate (fun _ => 5) (fun _ => some (7 : Nat)) [] 4).1 (by decide)

/-- C4: `Library::applies_to_current_environment` returns Allow (`true`)
for an empty rule list; otherwise the outcome is the action of the last
rule in order that matches the environment, Disallow when none matches,
and the library is relevant iff that final action is Allow. -/
theorem c4_rule_evaluation {Env : Type} (rules : List (Rule Env)) (m : Env) :
    appliesToCurrentEnvironment rules m = (claimedRuleOutcome rules m == RuleAction.allow) := by
  by_cases hempty : rules.isEmpty
  · rw [appliesToCurrentEnvironment, if_pos hempty, claimedRuleOutcome, if_pos hempty]
    rfl
  · rw [appliesToCurrentEnvironment, if_neg hempty, claimedRuleOutcome, if_neg hempty]
    rw [foldl_rules_eq_lastMatch]

/-- C5 counterexample: the claim — every occurrence of `${key}` is replaced
by the key's value and unknown placeholders are left verbatim, for every map
and input — fails on the code.  First conjunct: with the single-entry map
`{a ↦ "x${a}y"}` the output of the built substitutor still contains
`${a}`, a placeholder of a map key.  Second and third conjuncts: the same
map `{a ↦ "${b}", b ↦ "1"}` presented in its two possible `HashMap`
iteration orders yields two different outputs (`"1"` vs `"${b}"`) for the
same input `"${a}"`, so the output is not the function of (map, input) the
claim describes; in the second order the output again retains the key
placeholder `${b}`. -/
theorem c5_substitution_counterexample :
    occursIn (placeholder "a".toList)
        (substituteList [("a".toList, "x${a}y".toList)] (placeholder "a".toList)) = true
      ∧ substituteList [("a".toList, "${b}".toList), ("b".toList, "1".toList)]
          "${a}".toList = "1".toList
      ∧ substituteList [("b".toList, "1".toList), ("a".toList, "${b}".toList)]
          "${a}".toList = "${b}".toList := by
  refine ⟨by decide, by decide, by decide⟩

/-- C5 (amended): for maps whose keys contain none of `'$'`, `'{'`, `'}'`
and whose values contain no `'$'`, and for inputs that are well-formed
templates (non-`'$'` literals and `${name}` placeholders with such names),
the built substitutor replaces every `${key}` placeholder whose name is a
key of the map by that key's value and leaves every other placeholder
verbatim. -/
theorem c5_substitution_on_templates (m : List (Str × Str)) (items : List TItem)
    (hkeys : ∀ kv ∈ m, saneName kv.1 = true)
    (hvals : ∀ kv ∈ m, ∀ c ∈ kv.2, c ≠ '$')
    (hwf : wfTemplate items = true) :
    substituteList m (renderTemplate items) = applyTemplate m items :=
  substituteList_template m items hkeys hvals hwf

/-- Witness for C5 (amended) at a concrete input: map `{a ↦ "1"}` on the
template `${a}x${b}`: the known placeholder becomes `1`, the unknown
placeholder `${b}` is left verbatim. -/
theorem c5_substitution_on_templates_witness :
    substituteList [("a".toList, "1".toList)]
        (renderTemplate [TItem.ph "a".toList, TItem.lit 'x', TItem.ph "b".toList])
      = applyTemplate [("a".toList, "1".toList)]
          [TItem.ph "a".toList, TItem.lit 'x', TItem.ph "b".toList] :=
  c5_substitution_on_templates [("a".toList, "1".toList)]
    [TItem.ph "a".toList, TItem.lit 'x', TItem.ph "b".toList]
    (by decide) (by decide) (by decide)

/-- C6: `construct_classpath` fails iff some classpath entry (a relevant
library path or the main jar path) is not an existing regular file; on
success every entry is an existing regular file and the entries are joined
with `';'` on Windows and `':'` on every other OS. -/
theorem c6_classpath_check (isFile : Str → Bool) (os : OperatingSystem)
    (libraryPaths : List Str) (jarPath : Str) :
    ((constructClasspath isFile os libraryPaths jarPath).isOk = false
        ↔ ∃ p ∈ getClasspath libraryPaths jarPath, isFile p = false)
      ∧ ∀ s, constructClasspath isFile os libraryPaths jarPath = Except.ok s →
          ((∀ p ∈ getClasspath libraryPaths jarPath, isFile p = true)
            ∧ s = List.intercalate (classpathSeparator os) (getClasspath libraryPaths jarPath)) := by
  cases hfind : (getClasspath libraryPaths jarPath).find? (fun p => !isFile p) with
  | none =>
    have hall : ∀ p ∈ getClasspath libraryPaths jarPath, isFile p = true := by
      intro p hp
      have := List.find?_eq_none.mp hfind p hp
      simpa using this
    constructor
    · constructor
      · intro hok
        simp [constructClasspath, hfind, Except.isOk, Except.toBool] at hok
      · rintro ⟨p, hp, hfalse⟩
        rw [hall p hp] at hfalse
        exact Bool.noConfusion hfalse
    · intro s hok
      simp only [constructClasspath, hfind] at hok
      refine ⟨hall, ?_⟩
      cases hok
      rfl
  | some p =>
    have hp : isFile p = false := by
      have := List.find?_some hfind
      simpa using this
    have hmem : p ∈ getClasspath libraryPaths jarPath := List.mem_of_find?_eq_some hfind
    constructor
    · constructor
      · intro _
        exact ⟨p, hmem, hp⟩
      · intro _
        simp [constructClasspath, hfind, Except.isOk, Except.toBool]
    · intro s hok
      simp [constructClasspath, hfind] at hok

/-- Witness for C6 at a concrete input: with every path an existing file,
construction succeeds, all entries are files and the result is the
`':'`-join of the classpath. -/
theorem c6_classpath_check_witness :
    (∀ p ∈ getClasspath [['l']] ['j'], (fun _ : Str => true) p = true)
      ∧ "l:j".toList
          = List.intercalate (classpathSeparator OperatingSystem.linux) (getClasspath [['l']] ['j']) :=
  (c6_classpath_check (fun _ => true) OperatingSystem.linux [['l']] ['j']).2 "l:j".toList rfl

/-- C7 counterexample: the claim — every command line logged by the launcher
contains `?????` in place of the token and never the token itself — fails:
the `"Half command"` line is logged before redaction, so with the JVM
argument `-Dtoken=SECRET` and configured token `SECRET` (nonempty), a logged
command line contains the token verbatim. -/
theorem c7_redaction_counterexample :
    joinSpace ["-Dtoken=SECRET".toList]
        ∈ launcherCommandLogs ["-Dtoken=SECRET".toList] [] "SECRET".toList
      ∧ occursIn "SECRET".toList (joinSpace ["-Dtoken=SECRET".toList]) = true
      ∧ "SECRET".toList ≠ [] := by
  refine ⟨by decide, by decide, by decide⟩

/-- C7 (amended): the final `"Running …"` command line — the last entry of
`launcherCommandLogs` — is logged after `args.replace(&token, "?????")`;
for every nonempty token containing no `'?'` it never contains the token,
and it contains `?????` whenever the unredacted command line contained the
token.  The earlier `"Half command"` line is logged unredacted and may
contain the token (see the counterexample). -/
theorem c7_final_log_redacted (fullArgs : List Str) (token : Str)
    (htne : token ≠ []) (hgood : ∀ c ∈ token, c ≠ '?') :
    occursIn token (redactToken token (joinSpace fullArgs)) = false
      ∧ (occursIn token (joinSpace fullArgs) = true →
          occursIn quesMarks (redactToken token (joinSpace fullArgs)) = true) := by
  have hne : ¬(token.isEmpty = true) := by
    simp [List.isEmpty_iff, htne]
  rw [redactToken, if_neg hne]
  constructor
  · exact not_occursIn_listReplace_ques token htne hgood (joinSpace fullArgs).length _ le_rfl
  · intro hocc
    exact occursIn_ques_listReplace_of_occurs token htne _ hocc

/-- Witness for C7 (amended) at a concrete input: token `abc` (nonempty,
no `'?'`), command line `x abc`: the redacted line contains no `abc` and
does contain `?????`. -/
theorem c7_final_log_redacted_witness :
    occursIn "abc".toList (redactToken "abc".toList (joinSpace ["x".toList, "abc".toList])) = false
      ∧ (occursIn "abc".toList (joinSpace ["x".toList, "abc".toList]) = true →
          occursIn quesMarks (redactToken "abc".toList (joinSpace ["x".toList, "abc".toList])) = true) :=
  c7_final_log_redacted ["x".toList, "abc".toList] "abc".toList (by decide) (by decide)

/-- C8: the claim says the natives directory name differs for every two
launch invocations, including invocations at distinct times.  The code
suffixes `Utc::now().nanosecond()` — the nanosecond fraction of the current
second, not a timestamp — so the two distinct instants 0 s + 500 ns and
1 s + 500 ns (the failing input) produce the same directory name. -/
theorem c8_natives_dir_collision :
    (⟨0, 500⟩ : Instant) ≠ (⟨1, 500⟩ : Instant)
      ∧ nativesDirName "1.20.1".toList ⟨0, 500⟩ = nativesDirName "1.20.1".toList ⟨1, 500⟩ := by
  refine ⟨by decide, by decide⟩

/-- C9: applying the built substitutor to a string that contains no `${key}`
occurrence for any key of the map returns the string unchanged; hence a
second application is a no-op whenever the first application's output is
fully substituted. -/
theorem c9_substitutor_idempotent (m : List (Str × Str)) (s : Str) :
    ((∀ kv ∈ m, occursIn (placeholder kv.1) s = false) → substituteList m s = s)
      ∧ ((∀ kv ∈ m, occursIn (placeholder kv.1) (substituteList m s) = false) →
          substituteList m (substituteList m s) = substituteList m s) :=
  ⟨fun h => substituteList_of_fully_substituted m s h,
   fun h => substituteList_of_fully_substituted m (substituteList m s) h⟩

/-- Witness for C9 at a concrete input: the map `{a ↦ "1"}` leaves the
fully substituted string `xy` unchanged. -/
theorem c9_substitutor_idempotent_witness :
    substituteList [("a".toList, "1".toList)] "xy".toList = "xy".toList :=
  (c9_substitutor_idempotent [("a".toList, "1".toList)] "xy".toList).1 (by decide)

/-- C10: every key of the configured `substitutor_overrides` map ends up
mapped to the override's value in the substitutor map built by
`create_arguments_substitutor`, because the overrides are inserted last and
`HashMap::insert` replaces earlier insertions of the same key. -/
theorem c10_overrides_win (i : SubstitutorInputs) (k v : Str)
    (hnodup : (i.substitutorOverrides.map Prod.fst).Nodup)
    (hmem : (k, v) ∈ i.substitutorOverrides) :
    createArgumentsSubstitutorMap i k = some v := by
  show addAllKV _ i.substitutorOverrides k = some v
  exact addAllKV_lookup_of_mem i.substitutorOverrides _ k v hnodup hmem

/-- Witness for C10 at a concrete input: overriding the built-in
`version_name` key (whose built-in value would be `1.20.1`) with `custom`
makes the final map return `custom`. -/
theorem c10_overrides_win_witness :
    createArgumentsSubstitutorMap
        { authAccessToken := "tok".toList
          authSession := "sess".toList
          authPlayerName := "player".toList
          authUuid := "uuid".toList
          userType := "legacy".toList
          versionId := "1.20.1".toList
          gameDirectory := "/g".toList
          gameAssets := "/g/assets/virtual/3".toList
          assetsRoot := "/g/assets".toList
          assetsIndexName := "3".toList
          versionType := "release".toList
          resolution := none
          assetIndexSubstitutions := []
          launcherOptions := none
          nativesDirectory := "/g/versions/1.20.1/1.20.1-natives-5".toList
          classpath := "/g/libraries/a.jar".toList
          os := OperatingSystem.linux
          primaryJar := "/g/versions/1.20.1/1.20.1.jar".toList
          libraryDirectory := "/g/libraries".toList
          extraSubstitutors := []
          substitutorOverrides := [("version_name".toList, "custom".toList)] }
        "version_name".toList = some "custom".toList :=
  c10_overrides_win _ "version_name".toList "custom".toList (by decide) (by decide)

end MCLauncher
